import Mathlib

/-
Verification of the resume-tailor keyword-matching, confidence-scoring,
section-splitting and text-normalization engine.

The Python source is shallowly embedded over `List Char` (one entry per
character of the Python string, ASCII-faithful: Python `str.lower`,
`re.IGNORECASE`, `str.split()`, `str.strip()` and `str.title()` are modelled
via `Char.toLower` / `Char.toUpper` and an explicit ASCII whitespace
predicate).  Python floats are modelled as exact rationals.
-/

/-- Characters treated as whitespace by Python's `str.split()` / `str.strip()`
(ASCII range). -/
def isPySpace (c : Char) : Bool :=
  c == ' ' || c == '\t' || c == '\n' || c == '\r' || c == '\x0b' || c == '\x0c'

/-- Python `str.strip()`: drop leading and trailing whitespace. -/
def pstrip (l : List Char) : List Char :=
  ((l.dropWhile isPySpace).reverse.dropWhile isPySpace).reverse

/-- Does the pattern `p` occur in `t` starting at index `i`?
Mirrors a regex literal match attempt at one position. -/
def matchAt (t p : List Char) (i : Nat) : Bool :=
  decide (i + p.length ≤ t.length) && ((t.drop i).take p.length == p)

/-- Fuel-indexed scan collecting the start indices of the non-overlapping
left-to-right matches of `p` in `t`, as Python's `re.findall` / `re.finditer`
do: after a match the scan resumes past its end (one position further for a
zero-width match). -/
def findMatchesAux (t p : List Char) : Nat → Nat → List Nat
  | 0, _ => []
  | fuel + 1, i =>
    if matchAt t p i then i :: findMatchesAux t p fuel (i + max 1 p.length)
    else if i < t.length then findMatchesAux t p fuel (i + 1)
    else []

/-- Start indices of the non-overlapping matches of `p` in `t`. -/
def findMatches (t p : List Char) : List Nat :=
  findMatchesAux t p (t.length + 2) 0

/-- Python's substring test `needle in hay`. -/
def isSubstring (needle : List Char) : List Char → Bool
  | [] => needle.isEmpty
  | c :: rest => needle.isPrefixOf (c :: rest) || isSubstring needle rest

/-- Specification-side description of the non-overlapping occurrence
positions of a pattern `p` in a text, written as a clean structural
recursion: at each position either `p` is a prefix (record the offset and
skip past the occurrence) or move one character right. -/
def specMatches (p : List Char) : List Char → Nat → List Nat
  | [], _ => []
  | c :: rest, off =>
    if p.isPrefixOf (c :: rest) then
      off :: specMatches p (rest.drop (p.length - 1)) (off + p.length)
    else specMatches p rest (off + 1)
termination_by t _ => t.length
decreasing_by
  all_goals simp [List.length_drop]
  all_goals omega

/-- Number of non-overlapping occurrences of `p` in `t`. -/
def countOcc (p t : List Char) : Nat :=
  (specMatches p t 0).length

/-- Per-keyword result of `AIService.analyze_resume_keywords`
(`{"found": ..., "frequency": ..., "context": ...}`). -/
structure MatchResult where
  found : Bool
  frequency : Nat
  context : List (List Char)
deriving DecidableEq

/-- Python slice `resume_text[max(0, s - 50) : min(len(resume_text), e + 50)]`
followed by `.strip()`, the context window around a match spanning
positions `s` to `e`.  (Nat subtraction already clamps `s - 50` at `0`.) -/
def contextWindow (t : List Char) (s e : Nat) : List Char :=
  pstrip ((t.drop (s - 50)).take (min t.length (e + 50) - (s - 50)))

namespace AIService

/-- Body of the per-keyword loop of `AIService.analyze_resume_keywords`:
case-insensitive literal search (pattern `re.escape(keyword)` with
`re.IGNORECASE`, modelled by lowering both sides), occurrence count from
`findall`, and the stripped 50-character context windows of the first three
matches. -/
def analyzeKeyword (resume_text kw : List Char) : MatchResult :=
  let kl := kw.map Char.toLower
  let tl := resume_text.map Char.toLower
  let ms := findMatches tl kl
  { found := decide (0 < ms.length)
  , frequency := ms.length
  , context := (ms.map (fun s => contextWindow resume_text s (s + kl.length))).take 3 }

/-- Model of `AIService.analyze_resume_keywords`: one `MatchResult` per keyword,
keyed by the keyword (the Python dict, as an association list). -/
def analyze_resume_keywords (resume_text : List Char) (keywords : List (List Char)) :
    List (List Char × MatchResult) :=
  keywords.map (fun k => (k, analyzeKeyword resume_text k))

end AIService

/-- Category field of a keyword record (only the values produced by the
fallback extractor are needed). -/
inductive Category where
  | technical
  | soft_skill
  | tool
deriving DecidableEq

/-- A `{keyword, importance, category}` record as produced by keyword
extraction. -/
structure KeywordRecord where
  keyword : List Char
  importance : ℚ
  category : Category
deriving DecidableEq

/-- A keyword analysis: the Python dict mapping keyword to `MatchResult`. -/
abbrev KeywordAnalysis := List (List Char × MatchResult)

/-- Python `keyword in keyword_analysis and keyword_analysis[keyword]['found']`. -/
def foundInAnalysis (analysis : KeywordAnalysis) (kw : List Char) : Bool :=
  match analysis.lookup kw with
  | some r => r.found
  | none => false

/-- Python `sum(kw.get('importance', 0) for kw in keywords)`. -/
def totalImportance (keywords : List KeywordRecord) : ℚ :=
  (keywords.map (fun kw => kw.importance)).sum

/-- The `matched_importance` accumulation loop of
`AIService.calculate_confidence_score`. -/
def matchedImportance (analysis : KeywordAnalysis) (keywords : List KeywordRecord) : ℚ :=
  (keywords.map (fun kw => if foundInAnalysis analysis kw.keyword then kw.importance else 0)).sum

namespace AIService

/-- Model of `AIService.calculate_confidence_score`: importance-weighted match score. -/
def calculate_confidence_score (analysis : KeywordAnalysis)
    (keywords : List KeywordRecord) : ℚ :=
  if keywords.isEmpty then 0
  else if totalImportance keywords = 0 then 0
  else min 1 (matchedImportance analysis keywords / totalImportance keywords)

end AIService

/-- Mathematical floor of a rational, computed on the numerator and
denominator (`Int.fdiv` is floor division and the denominator is positive). -/
def ratFloor (q : ℚ) : ℤ :=
  q.num.fdiv q.den

/-- Python `round(x, 3)`: round to 3 decimal places, ties to even. -/
def pythonRound3 (q : ℚ) : ℚ :=
  let m : ℚ := q * 1000
  let f : ℤ := ratFloor m
  let r : ℤ := if m - f = 1 / 2 then (if f % 2 = 0 then f else f + 1) else ratFloor (m + 1 / 2)
  (r : ℚ) / 1000

namespace OllamaService

/-- Model of `OllamaService.calculate_confidence_score`: unweighted match fraction plus
a per-keyword frequency bonus of `min(0.1, frequency * 0.02)` for keywords
found more than once, capped at `1.0` and rounded to 3 decimals.  The
`missing_keywords` argument is accepted and ignored, as in the source. -/
def calculate_confidence_score (keyword_matches : KeywordAnalysis)
    (_missing_keywords : List (List Char)) (total_keywords : Nat) : ℚ :=
  if total_keywords = 0 then 0
  else
    let matched_count := (keyword_matches.filter (fun p => p.2.found)).length
    let base_score : ℚ := (matched_count : ℚ) / (total_keywords : ℚ)
    let frequency_bonus : ℚ :=
      (keyword_matches.map (fun p =>
        if p.2.found ∧ 1 < p.2.frequency then
          min (1 / 10) ((p.2.frequency : ℚ) * (2 / 100))
        else 0)).sum
    pythonRound3 (min 1 (base_score + frequency_bonus))

end OllamaService

/-- Python `str.title()` (ASCII): a letter is uppercased when the previous
character is not a letter, lowercased otherwise. -/
def pythonTitle (l : List Char) : List Char :=
  (l.foldl
    (fun (acc : List Char × Bool) c =>
      (acc.1 ++ [if acc.2 then Char.toLower c else Char.toUpper c], c.isAlpha))
    ([], false)).1

/-- Python `text.split('\n')`. -/
def splitLines : List Char → List (List Char)
  | [] => [[]]
  | c :: rest =>
    if c = '\n' then [] :: splitLines rest
    else
      match splitLines rest with
      | [] => [[c]]
      | w :: ws => (c :: w) :: ws

/-- Python `sep.join(parts)` for a one-character separator. -/
def joinWith (sep : Char) : List (List Char) → List Char
  | [] => []
  | [w] => w
  | w :: ws => w ++ sep :: joinWith sep ws

/-- One `{'section_name': ..., 'content': ...}` dict of the fallback section
analysis. -/
structure ResumeSection where
  section_name : List Char
  content : List Char
deriving DecidableEq

namespace AIService

/-- The `section_keywords` table of `AIService._fallback_section_analysis`,
in Python dict insertion order. -/
def section_keywords : List (List Char × List (List Char)) :=
  [("experience".toList,
    ["experience".toList, "work history".toList, "employment".toList, "career".toList]),
   ("education".toList,
    ["education".toList, "academic".toList, "degree".toList, "university".toList,
     "college".toList]),
   ("skills".toList,
    ["skills".toList, "technical skills".toList, "competencies".toList,
     "expertise".toList]),
   ("summary".toList,
    ["summary".toList, "objective".toList, "profile".toList, "about".toList]),
   ("projects".toList,
    ["projects".toList, "portfolio".toList, "achievements".toList]),
   ("certifications".toList,
    ["certifications".toList, "certificates".toList, "licenses".toList])]

/-- The header test of the fallback section splitter: the first table entry
one of whose synonyms occurs in the lowercased stripped line, if any. -/
def matchSection (line_lower : List Char) : Option (List Char) :=
  (section_keywords.find? (fun p => p.2.any (fun k => isSubstring k line_lower))).map
    (fun p => p.1)

/-- Loop state of `AIService._fallback_section_analysis`:
completed sections, current section label, accumulated content lines. -/
structure SplitState where
  sections : List ResumeSection
  current : List Char
  content : List (List Char)
deriving DecidableEq

/-- One iteration of the line loop of `AIService._fallback_section_analysis`. -/
def sectionStep (st : SplitState) (line : List Char) : SplitState :=
  let line_lower := pstrip (line.map Char.toLower)
  match matchSection line_lower with
  | some name =>
    { sections :=
        if st.content.isEmpty then st.sections
        else st.sections ++ [⟨pythonTitle st.current, pstrip (joinWith '\n' st.content)⟩]
    , current := pythonTitle name
    , content := [] }
  | none =>
    if (pstrip line).isEmpty then st
    else { st with content := st.content ++ [line] }

/-- The loop of `AIService._fallback_section_analysis` over a given line
list, including the final flush. -/
def processLines (lines : List (List Char)) : List ResumeSection :=
  let st := lines.foldl sectionStep ⟨[], "Summary".toList, []⟩
  if st.content.isEmpty then st.sections
  else st.sections ++ [⟨pythonTitle st.current, pstrip (joinWith '\n' st.content)⟩]

/-- Model of `AIService._fallback_section_analysis`. -/
def fallback_section_analysis (resume_text : List Char) : List ResumeSection :=
  processLines (splitLines resume_text)

end AIService

/-- The Python-whitespace word splitter `str.split()` (accumulator holds the
current word reversed). -/
def pySplitAux : List Char → List Char → List (List Char)
  | [], acc => if acc.isEmpty then [] else [acc.reverse]
  | c :: rest, acc =>
    if isPySpace c then
      if acc.isEmpty then pySplitAux rest []
      else acc.reverse :: pySplitAux rest []
    else pySplitAux rest (c :: acc)

/-- Python `text.split()`: maximal runs of non-whitespace characters. -/
def pySplit (l : List Char) : List (List Char) :=
  pySplitAux l []

/-- Python `text.replace('\r\n', '\n')`: left-to-right scan replacing each
occurrence of the two-character pattern. -/
def replaceCRLF : List Char → List Char
  | [] => []
  | [c] => [c]
  | c :: d :: rest =>
    if c = '\r' ∧ d = '\n' then '\n' :: replaceCRLF rest
    else c :: replaceCRLF (d :: rest)

/-- Python `text.replace('\r', '\n')`. -/
def replaceCR (l : List Char) : List Char :=
  l.map (fun c => if c = '\r' then '\n' else c)

namespace FileService

/-- Model of `FileService.clean_text`: collapse whitespace via `' '.join(text.split())`,
remove null bytes, normalize line breaks, strip. -/
def clean_text (text : List Char) : List Char :=
  if text.isEmpty then []
  else
    let t1 := joinWith ' ' (pySplit text)
    let t2 := t1.filter (fun c => !(c == '\x00'))
    let t3 := replaceCR (replaceCRLF t2)
    pstrip t3

end FileService

/-- Scanner for the "no two consecutive spaces" property of cleaned text. -/
def noDoubleSpace : List Char → Bool
  | [] => true
  | [_] => true
  | c :: d :: rest => !(c == ' ' && d == ' ') && noDoubleSpace (d :: rest)

namespace ResumeRouter

/-- Core of the `/resume/analyze` handler (`resume_router.analyze_resume`)
downstream of keyword extraction, with the model backend disabled: keyword
analysis of the résumé, the found-keyword frequency map, the missing-keyword
list, and the confidence score. -/
def analyze_resume (resume_text : List Char) (keywords_data : List KeywordRecord) :
    List (List Char × Nat) × List (List Char) × ℚ :=
  let keywords := keywords_data.map (fun kw => kw.keyword)
  let keyword_analysis := AIService.analyze_resume_keywords resume_text keywords
  let keyword_matches :=
    (keyword_analysis.filter (fun p => p.2.found)).map (fun p => (p.1, p.2.frequency))
  let missing_keywords :=
    (keyword_analysis.filter (fun p => !p.2.found)).map (fun p => p.1)
  let confidence_score := AIService.calculate_confidence_score keyword_analysis keywords_data
  (keyword_matches, missing_keywords, confidence_score)

end ResumeRouter

namespace AIService

/-- The hardcoded technical-skill list of `AIService._fallback_keyword_extraction`. -/
def technical_keywords : List (List Char) :=
  ["python".toList, "java".toList, "javascript".toList, "react".toList,
   "node.js".toList, "sql".toList, "aws".toList, "docker".toList,
   "kubernetes".toList, "machine learning".toList, "ai".toList,
   "data science".toList, "git".toList, "agile".toList, "scrum".toList,
   "api".toList, "rest".toList, "graphql".toList, "html".toList, "css".toList,
   "typescript".toList, "angular".toList, "vue.js".toList, "mongodb".toList,
   "postgresql".toList, "mysql".toList, "redis".toList, "elasticsearch".toList,
   "kafka".toList, "spark".toList, "hadoop".toList, "tensorflow".toList,
   "pytorch".toList, "scikit-learn".toList]

/-- The hardcoded soft-skill list of `AIService._fallback_keyword_extraction`. -/
def soft_skills : List (List Char) :=
  ["leadership".toList, "communication".toList, "teamwork".toList,
   "problem solving".toList, "analytical".toList, "creative".toList,
   "organized".toList, "detail-oriented".toList, "time management".toList,
   "collaboration".toList, "mentoring".toList, "project management".toList,
   "customer service".toList, "sales".toList, "marketing".toList]

/-- The hardcoded tool list of `AIService._fallback_keyword_extraction`. -/
def tools : List (List Char) :=
  ["jira".toList, "confluence".toList, "slack".toList, "teams".toList,
   "zoom".toList, "figma".toList, "sketch".toList, "photoshop".toList,
   "illustrator".toList, "excel".toList, "powerpoint".toList, "word".toList,
   "outlook".toList]

/-- Model of `AIService._fallback_keyword_extraction`: membership scan of the three
hardcoded term lists over the lowercased job description, with fixed
importances 0.8 / 0.6 / 0.7. -/
def fallback_keyword_extraction (job_description : List Char) : List KeywordRecord :=
  let job_lower := job_description.map Char.toLower
  (technical_keywords.filter (fun k => isSubstring k job_lower)).map
      (fun k => ⟨k, 8 / 10, Category.technical⟩)
    ++ (soft_skills.filter (fun k => isSubstring k job_lower)).map
      (fun k => ⟨k, 6 / 10, Category.soft_skill⟩)
    ++ (tools.filter (fun k => isSubstring k job_lower)).map
      (fun k => ⟨k, 7 / 10, Category.tool⟩)

/-- The client field of `AIService`: the string `"ollama"`, an OpenAI client,
or `None`. -/
inductive Client where
  | ollama
  | openai
  | disabled
deriving DecidableEq

/-- Model of `AIService.tailor_resume`.  The two model backends are external
collaborators; their replies are passed in as oracle arguments
(`ollamaReply` is the string returned by `_call_ollama`, `openaiReply` is
`None` when the OpenAI call raises).  With `client = disabled` the method
returns `resume_text` unchanged. -/
def tailor_resume (client : Client) (ollamaReply : List Char)
    (openaiReply : Option (List Char)) (resume_text : List Char)
    (_job_description : List Char) (_target_role : Option (List Char)) : List Char :=
  match client with
  | Client.ollama =>
    if ollamaReply.isEmpty = false ∧ 100 < ollamaReply.length then ollamaReply
    else resume_text
  | Client.disabled => resume_text
  | Client.openai =>
    match openaiReply with
    | some reply => pstrip reply
    | none => resume_text

end AIService

namespace OllamaService

/-- Model of `OllamaService.tailor_resume`: with the client unavailable the input
résumé is returned unchanged; otherwise the backend reply is used only when
it is non-empty and longer than 100 characters. -/
def tailor_resume (client_available : Bool) (ollamaReply : List Char)
    (resume_text : List Char) (_job_description : List Char)
    (_target_role : Option (List Char)) : List Char :=
  if client_available then
    if ollamaReply.isEmpty = false ∧ 100 < ollamaReply.length then ollamaReply
    else resume_text
  else resume_text

end OllamaService

theorem matchAt_iff (t p : List Char) (i : Nat) (hp : p ≠ []) :
    matchAt t p i = true ↔ p <+: t.drop i := by
  unfold matchAt
  rw [Bool.and_eq_true, decide_eq_true_iff, beq_iff_eq]
  constructor
  · rintro ⟨h1, h2⟩
    rw [List.prefix_iff_eq_take]
    exact h2.symm
  · intro h
    have hlen := h.length_le
    rw [List.length_drop] at hlen
    have hne : t.drop i ≠ [] := by
      intro hd
      rw [hd, List.prefix_nil] at h
      exact hp h
    have hi : i < t.length := by
      by_contra hle
      push_neg at hle
      exact hne (List.drop_eq_nil_of_le hle)
    exact ⟨by omega, (List.prefix_iff_eq_take.mp h).symm⟩

theorem drop_succ_of_drop_cons {t rest : List Char} {c : Char} {i : Nat}
    (hd : t.drop i = c :: rest) : t.drop (i + 1) = rest := by
  have := congrArg List.tail hd
  simpa [List.tail_drop] using this

theorem findMatchesAux_eq_specMatches (t p : List Char) (hp : p ≠ []) :
    ∀ fuel i, t.length + 1 - i ≤ fuel →
      findMatchesAux t p fuel i = specMatches p (t.drop i) i := by
  intro fuel
  induction fuel with
  | zero =>
    intro i hi
    rw [List.drop_eq_nil_of_le (by omega)]
    simp [findMatchesAux, specMatches]
  | succ fuel ih =>
    intro i hi
    by_cases h : matchAt t p i = true
    · have hpre : p <+: t.drop i := (matchAt_iff t p i hp).mp h
      obtain ⟨c, rest, hd⟩ : ∃ c rest, t.drop i = c :: rest := by
        cases hdrop : t.drop i with
        | nil =>
          rw [hdrop, List.prefix_nil] at hpre
          exact absurd hpre hp
        | cons c rest => exact ⟨c, rest, rfl⟩
      have hlen1 : 1 ≤ p.length := List.length_pos.mpr hp
      rw [findMatchesAux, if_pos h, hd, specMatches,
        if_pos ( List.isPrefixOf_iff_prefix.mpr (hd ▸ hpre))]
      have hmax : max 1 p.length = p.length := by omega
      congr 1
      have hrest : rest.drop (p.length - 1) = t.drop (i + p.length) := by
        rw [← drop_succ_of_drop_cons hd, List.drop_drop]
        congr 1
        omega
      rw [hmax, hrest]
      exact ih (i + p.length) (by omega)
    · by_cases hlt : i < t.length
      · obtain ⟨c, rest, hd⟩ : ∃ c rest, t.drop i = c :: rest := by
          cases hdrop : t.drop i with
          | nil => exact absurd (List.drop_eq_nil_iff.mp hdrop) (by omega)
          | cons c rest => exact ⟨c, rest, rfl⟩
        have hnpre : ¬ p.isPrefixOf (c :: rest) = true := by
          intro hc
          exact h ((matchAt_iff t p i hp).mpr (hd ▸ List.isPrefixOf_iff_prefix.mp hc))
        rw [findMatchesAux, if_neg h, if_pos hlt, hd, specMatches, if_neg hnpre,
          ← drop_succ_of_drop_cons hd]
        exact ih (i + 1) (by omega)
      · rw [findMatchesAux, if_neg h, if_neg hlt,
          List.drop_eq_nil_of_le (by omega), specMatches]

theorem findMatches_eq_specMatches (t p : List Char) (hp : p ≠ []) :
    findMatches t p = specMatches p t 0 := by
  have := findMatchesAux_eq_specMatches t p hp (t.length + 2) 0 (by omega)
  simpa [findMatches] using this

theorem findMatchesAux_empty_length (t : List Char) :
    ∀ fuel i, i ≤ t.length + 1 → t.length + 2 - i ≤ fuel →
      (findMatchesAux t [] fuel i).length = t.length + 1 - i := by
  intro fuel
  induction fuel with
  | zero => intro i hi hfuel; omega
  | succ fuel ih =>
    intro i hi hfuel
    by_cases h : i ≤ t.length
    · have hm : matchAt t [] i = true := by
        simp [matchAt, h]
      rw [findMatchesAux, if_pos hm]
      simp only [List.length_nil, Nat.max_zero, List.length_cons]
      rw [ih (i + 1) (by omega) (by omega)]
      omega
    · have hm : ¬ matchAt t [] i = true := by
        simp [matchAt]
        omega
      rw [findMatchesAux, if_neg hm, if_neg (by omega)]
      simp only [List.length_nil]
      omega

/-- C2: for every non-empty keyword and résumé text,
`AIService.analyze_resume_keywords` reports frequency = the number of
non-overlapping case-insensitive occurrences of the keyword (exact substring
match after lowercasing), found = (frequency > 0), and contexts of length
exactly min(frequency, 3), each context being the stripped substring
spanning 50 characters before and after one of the first three matches,
clamped to the text bounds. -/
theorem C2_keyword_matcher_correct (t : List Char) (ks : List (List Char))
    (p : List Char × MatchResult) (hp : p ∈ AIService.analyze_resume_keywords t ks)
    (hk : p.1 ≠ []) :
    p.2.frequency = countOcc (p.1.map Char.toLower) (t.map Char.toLower) ∧
    (p.2.found = true ↔ 0 < p.2.frequency) ∧
    p.2.context.length = min p.2.frequency 3 ∧
    p.2.context =
      ((specMatches (p.1.map Char.toLower) (t.map Char.toLower) 0).take 3).map
        (fun s => contextWindow t s (s + p.1.length)) := by
  rw [AIService.analyze_resume_keywords, List.mem_map] at hp
  obtain ⟨k, hkmem, hpk⟩ := hp
  subst hpk
  simp only at hk ⊢
  have hkl : k.map Char.toLower ≠ [] := by
    simpa using hk
  have hspec := findMatches_eq_specMatches (t.map Char.toLower) (k.map Char.toLower) hkl
  rw [AIService.analyzeKeyword]
  simp only [hspec, countOcc]
  refine ⟨trivial, by simp, ?_, ?_⟩
  · simp [List.length_take, List.length_map, Nat.min_comm]
  · rw [List.length_map, ← List.map_take]

/-- Witness for C2 at the spec's own example: the keyword `"Python"` with
mixed-case occurrences `"python PYTHON PyThOn"`. -/
theorem C2_keyword_matcher_correct_witness :
    (AIService.analyzeKeyword "python PYTHON PyThOn".toList "Python".toList).frequency =
      countOcc ("Python".toList.map Char.toLower)
        ("python PYTHON PyThOn".toList.map Char.toLower) ∧
    (AIService.analyzeKeyword "python PYTHON PyThOn".toList "Python".toList).frequency = 3 :=
  ⟨(C2_keyword_matcher_correct "python PYTHON PyThOn".toList ["Python".toList]
      ("Python".toList,
        AIService.analyzeKeyword "python PYTHON PyThOn".toList "Python".toList)
      (by decide) (by decide)).1,
   by decide⟩

/-- C4 counterexample: the empty keyword does not get an empty/false result.
On résumé text `"ab"` the empty pattern matches at every position, so the
matcher reports found = true, frequency = 3 and three contexts. -/
theorem C4_empty_keyword_counterexample :
    (AIService.analyzeKeyword "ab".toList []).found = true ∧
    (AIService.analyzeKeyword "ab".toList []).frequency = 3 ∧
    (AIService.analyzeKeyword "ab".toList []).context =
      ["ab".toList, "ab".toList, "ab".toList] := by
  decide

/-- C4 amended: for every résumé text, an empty keyword does not raise; the
empty pattern matches once at every position (including the end), so the
matcher reports frequency = length(text) + 1, found = true, and contexts of
length min(length(text) + 1, 3). -/
theorem C4_empty_keyword_amended (t : List Char) :
    (AIService.analyzeKeyword t []).found = true ∧
    (AIService.analyzeKeyword t []).frequency = t.length + 1 ∧
    (AIService.analyzeKeyword t []).context.length = min (t.length + 1) 3 := by
  have hlen : (findMatches (t.map Char.toLower) []).length = t.length + 1 := by
    have := findMatchesAux_empty_length (t.map Char.toLower)
      ((t.map Char.toLower).length + 2) 0 (by omega) (by omega)
    simpa [findMatches, List.length_map] using this
  rw [AIService.analyzeKeyword]
  simp only [List.map_nil, hlen]
  refine ⟨by simp, trivial, ?_⟩
  simp [List.length_take, List.length_map, hlen, Nat.min_comm]

theorem totalImportance_nonneg (keywords : List KeywordRecord)
    (h : ∀ kw ∈ keywords, 0 ≤ kw.importance) : 0 ≤ totalImportance keywords := by
  apply List.sum_nonneg
  intro x hx
  rw [List.mem_map] at hx
  obtain ⟨kw, hkw, rfl⟩ := hx
  exact h kw hkw

theorem matchedImportance_nonneg (analysis : KeywordAnalysis) (keywords : List KeywordRecord)
    (h : ∀ kw ∈ keywords, 0 ≤ kw.importance) : 0 ≤ matchedImportance analysis keywords := by
  apply List.sum_nonneg
  intro x hx
  rw [List.mem_map] at hx
  obtain ⟨kw, hkw, rfl⟩ := hx
  by_cases hf : foundInAnalysis analysis kw.keyword
  · simpa [hf] using h kw hkw
  · simp [hf]

/-- C1: `AIService.calculate_confidence_score` returns 0 when the record
list is empty or the total importance is 0, and otherwise
min(1, matched/total); for records with nonnegative importances (the data
model requires importance in [0,1]) the result always lies in [0,1]. -/
theorem C1_confidence_score_spec (analysis : KeywordAnalysis)
    (keywords : List KeywordRecord) (h : ∀ kw ∈ keywords, 0 ≤ kw.importance) :
    (keywords = [] → AIService.calculate_confidence_score analysis keywords = 0) ∧
    (totalImportance keywords = 0 →
      AIService.calculate_confidence_score analysis keywords = 0) ∧
    (keywords ≠ [] → totalImportance keywords ≠ 0 →
      AIService.calculate_confidence_score analysis keywords =
        min 1 (matchedImportance analysis keywords / totalImportance keywords)) ∧
    0 ≤ AIService.calculate_confidence_score analysis keywords ∧
    AIService.calculate_confidence_score analysis keywords ≤ 1 := by
  unfold AIService.calculate_confidence_score
  by_cases hnil : keywords = []
  · simp [hnil]
  · have hie : keywords.isEmpty = false := by
      simp [List.isEmpty_iff, hnil]
    by_cases htot : totalImportance keywords = 0
    · simp [hie, htot, hnil]
    · have hpos : 0 < totalImportance keywords :=
        lt_of_le_of_ne (totalImportance_nonneg keywords h) (Ne.symm htot)
      have hq : 0 ≤ matchedImportance analysis keywords / totalImportance keywords :=
        div_nonneg (matchedImportance_nonneg analysis keywords h) (le_of_lt hpos)
      simp only [hie, Bool.false_eq_true, if_false, if_neg htot]
      refine ⟨fun hc => absurd hc hnil, fun hc => absurd hc htot, fun _ _ => trivial, ?_, ?_⟩
      · exact le_min (by norm_num) hq
      · exact min_le_left 1 _

/-- Witness for C1 at a concrete analysis and record list. -/
theorem C1_confidence_score_spec_witness :
    0 ≤ AIService.calculate_confidence_score
        [("python".toList, ⟨true, 2, []⟩)]
        [⟨"python".toList, 1, Category.technical⟩] ∧
    AIService.calculate_confidence_score
        [("python".toList, ⟨true, 2, []⟩)]
        [⟨"python".toList, 1, Category.technical⟩] ≤ 1 :=
  (C1_confidence_score_spec [("python".toList, ⟨true, 2, []⟩)]
    [⟨"python".toList, 1, Category.technical⟩]
    (by
      intro kw hkw
      rw [List.mem_singleton] at hkw
      subst hkw
      norm_num)).2.2.2

/-- C9: the confidence score is insensitive to the found status of keywords
whose importance is 0 in all records: two analyses that agree on the found
status of every keyword carrying nonzero importance score the same. -/
theorem C9_zero_importance_noninterference (a1 a2 : KeywordAnalysis)
    (keywords : List KeywordRecord)
    (h : ∀ kw ∈ keywords, kw.importance ≠ 0 →
      foundInAnalysis a1 kw.keyword = foundInAnalysis a2 kw.keyword) :
    AIService.calculate_confidence_score a1 keywords =
      AIService.calculate_confidence_score a2 keywords := by
  have hm : matchedImportance a1 keywords = matchedImportance a2 keywords := by
    unfold matchedImportance
    apply congrArg List.sum
    apply List.map_congr_left
    intro kw hkw
    by_cases h0 : kw.importance = 0
    · simp [h0]
    · rw [h kw hkw h0]
  unfold AIService.calculate_confidence_score
  rw [hm]

/-- Witness for C9: flipping the found status of the zero-importance keyword
`"z"` leaves the score unchanged. -/
theorem C9_zero_importance_noninterference_witness :
    AIService.calculate_confidence_score [("z".toList, ⟨true, 1, []⟩)]
      [⟨"a".toList, 1, Category.technical⟩, ⟨"z".toList, 0, Category.technical⟩] =
    AIService.calculate_confidence_score []
      [⟨"a".toList, 1, Category.technical⟩, ⟨"z".toList, 0, Category.technical⟩] :=
  C9_zero_importance_noninterference [("z".toList, ⟨true, 1, []⟩)] []
    [⟨"a".toList, 1, Category.technical⟩, ⟨"z".toList, 0, Category.technical⟩]
    (by
      intro kw hkw h0
      simp only [List.mem_cons, List.mem_singleton] at hkw
      rcases hkw with rfl | rfl | hkw
      · decide
      · exact absurd rfl h0
      · exact absurd hkw (List.not_mem_nil kw))

theorem toLower_space {c : Char} (h : isPySpace c = true) : Char.toLower c = c := by
  simp only [isPySpace, Bool.or_eq_true, beq_iff_eq] at h
  rcases h with ((((h | h) | h) | h) | h) | h <;> subst h <;> decide

theorem map_toLower_of_space (l : List Char) (h : ∀ c ∈ l, isPySpace c = true) :
    l.map Char.toLower = l := by
  induction l with
  | nil => rfl
  | cons c rest ih =>
    have hc := h c (List.mem_cons_self c rest)
    have hrest : ∀ x ∈ rest, isPySpace x = true :=
      fun x hx => h x (List.mem_cons_of_mem c hx)
    simp [toLower_space hc, ih hrest]

theorem pstrip_of_space (l : List Char) (h : ∀ c ∈ l, isPySpace c = true) :
    pstrip l = [] := by
  have h1 : l.dropWhile isPySpace = [] := by
    rw [List.dropWhile_eq_nil_iff]
    exact fun x hx => h x hx
  rw [pstrip, h1]
  rfl

theorem sectionStep_blank (st : AIService.SplitState) (bl : List Char)
    (hbl : ∀ c ∈ bl, isPySpace c = true) :
    AIService.sectionStep st bl = st := by
  simp only [AIService.sectionStep, map_toLower_of_space bl hbl, pstrip_of_space bl hbl]
  rfl

/-- C3: the fallback section splitter drops blank (all-whitespace) lines
entirely; on the spec's example it produces the Summary and Experience
sections; and on a line naming several sections the first match in table
order wins (a line containing both "education" and "experience" starts an
Experience section because experience is checked first). -/
theorem C3_section_splitter (ls1 ls2 : List (List Char)) (bl : List Char)
    (hbl : ∀ c ∈ bl, isPySpace c = true) :
    AIService.processLines (ls1 ++ bl :: ls2) = AIService.processLines (ls1 ++ ls2) ∧
    AIService.fallback_section_analysis
        "Summary\nBuilt things\nExperience\nDid work\n".toList =
      [⟨"Summary".toList, "Built things".toList⟩,
       ⟨"Experience".toList, "Did work".toList⟩] ∧
    AIService.fallback_section_analysis "intro\nEducation and Experience\nstuff".toList =
      [⟨"Summary".toList, "intro".toList⟩, ⟨"Experience".toList, "stuff".toList⟩] := by
  refine ⟨?_, by decide, by decide⟩
  unfold AIService.processLines
  rw [List.foldl_append, List.foldl_append, List.foldl_cons,
    sectionStep_blank _ bl hbl]

/-- Witness for C3: inserting the blank line `"  "` between two content
lines does not change the splitter's output. -/
theorem C3_section_splitter_witness :
    AIService.processLines (["alpha".toList] ++ "  ".toList :: ["beta".toList]) =
      AIService.processLines (["alpha".toList] ++ ["beta".toList]) :=
  (C3_section_splitter ["alpha".toList] ["beta".toList] "  ".toList (by decide)).1

/-- C5: the two confidence-score implementations diverge.  On the analysis
where only "python" is found (once) out of the two keywords, with
importances 0.8 and 0.2, `AIService.calculate_confidence_score` returns the
importance-weighted 0.8 while `OllamaService.calculate_confidence_score`
returns the unweighted 1/2 (no frequency bonus at frequency 1). -/
theorem C5_confidence_scores_divergent :
    AIService.calculate_confidence_score
        [("python".toList, ⟨true, 1, []⟩), ("java".toList, ⟨false, 0, []⟩)]
        [⟨"python".toList, 8 / 10, Category.technical⟩,
         ⟨"java".toList, 2 / 10, Category.technical⟩] = 8 / 10 ∧
    OllamaService.calculate_confidence_score
        [("python".toList, ⟨true, 1, []⟩), ("java".toList, ⟨false, 0, []⟩)]
        ["java".toList] 2 = 1 / 2 ∧
    (8 / 10 : ℚ) ≠ 1 / 2 := by
  refine ⟨?_, ?_, by norm_num⟩
  · simp +decide only [AIService.calculate_confidence_score, totalImportance,
      matchedImportance, List.map_cons, List.map_nil, List.sum_cons, List.sum_nil,
      List.isEmpty_cons, if_true, if_false]
    norm_num
  · have hf : Int.fdiv 1001 2 = 500 := by decide
    simp +decide only [OllamaService.calculate_confidence_score, pythonRound3,
      List.filter, List.map_cons, List.map_nil, List.sum_cons, List.sum_nil]
    norm_num [ratFloor, Rat.num_div_den]
    rw [hf]
    norm_num

/-- C6: with the model backend disabled (no client available), both
`AIService.tailor_resume` and `OllamaService.tailor_resume` return the
input résumé text unchanged, character for character, whatever the job
description, target role and backend replies are. -/
theorem C6_tailor_resume_identity_fallback (resume job ollamaReply : List Char)
    (openaiReply : Option (List Char)) (role : Option (List Char)) :
    AIService.tailor_resume AIService.Client.disabled ollamaReply openaiReply
        resume job role = resume ∧
    OllamaService.tailor_resume false ollamaReply resume job role = resume :=
  ⟨rfl, rfl⟩

/-- C7: with the backend disabled, keyword extraction is the deterministic
scan of the 62 hardcoded terms over the lowercased job description: every
returned record carries the fixed importance of its category (0.8
technical, 0.6 soft skill, 0.7 tool), its keyword is one of the hardcoded
terms and occurs in the lowercased job description; and on
"I know Python and Docker" the output is exactly the python and docker
entries (so two calls trivially agree). -/
theorem C7_fallback_extraction_scan (job : List Char) :
    (∀ r ∈ AIService.fallback_keyword_extraction job,
      (r.category = Category.technical → r.importance = 8 / 10) ∧
      (r.category = Category.soft_skill → r.importance = 6 / 10) ∧
      (r.category = Category.tool → r.importance = 7 / 10) ∧
      r.keyword ∈ AIService.technical_keywords ++ AIService.soft_skills
        ++ AIService.tools ∧
      isSubstring r.keyword (job.map Char.toLower) = true) ∧
    AIService.technical_keywords.length + AIService.soft_skills.length
      + AIService.tools.length = 62 ∧
    AIService.fallback_keyword_extraction "I know Python and Docker".toList =
      [⟨"python".toList, 8 / 10, Category.technical⟩,
       ⟨"docker".toList, 8 / 10, Category.technical⟩] := by
  refine ⟨?_, by decide, by rfl⟩
  intro r hr
  rw [AIService.fallback_keyword_extraction] at hr
  simp only [List.mem_append, List.mem_map, List.mem_filter] at hr
  rcases hr with (⟨k, ⟨hk1, hk2⟩, rfl⟩ | ⟨k, ⟨hk1, hk2⟩, rfl⟩) | ⟨k, ⟨hk1, hk2⟩, rfl⟩
  · exact ⟨fun _ => rfl, fun hc => by simp at hc, fun hc => by simp at hc,
      List.mem_append_left _ (List.mem_append_left _ hk1), hk2⟩
  · exact ⟨fun hc => by simp at hc, fun _ => rfl, fun hc => by simp at hc,
      List.mem_append_left _ (List.mem_append_right _ hk1), hk2⟩
  · exact ⟨fun hc => by simp at hc, fun hc => by simp at hc, fun _ => rfl,
      List.mem_append_right _ hk1, hk2⟩

/-- Witness for C7: the python record returned on
"I know Python and Docker" satisfies the scan properties. -/
theorem C7_fallback_extraction_scan_witness :
    isSubstring "python".toList
      ("I know Python and Docker".toList.map Char.toLower) = true :=
  ((C7_fallback_extraction_scan "I know Python and Docker".toList).1
    ⟨"python".toList, 8 / 10, Category.technical⟩
    (by
      rw [show AIService.fallback_keyword_extraction "I know Python and Docker".toList =
        [⟨"python".toList, 8 / 10, Category.technical⟩,
         ⟨"docker".toList, 8 / 10, Category.technical⟩] from rfl]
      exact List.mem_cons_self _ _)).2.2.2.2

/-- C8: end-to-end over the analysis pipeline with the backend disabled.
For résumé "I use Python daily" and keyword records Python (importance 0.8)
and Java (importance 0.2), the response carries
keyword_matches = {"Python": 1}, missing_keywords = ["Java"] and
confidence score 0.8. -/
theorem C8_end_to_end_example :
    ResumeRouter.analyze_resume "I use Python daily".toList
        [⟨"Python".toList, 8 / 10, Category.technical⟩,
         ⟨"Java".toList, 2 / 10, Category.technical⟩] =
      ([("Python".toList, 1)], ["Java".toList], 8 / 10) := by
  have hana : AIService.analyze_resume_keywords "I use Python daily".toList
      ["Python".toList, "Java".toList] =
      [("Python".toList, ⟨true, 1, ["I use Python daily".toList]⟩),
       ("Java".toList, ⟨false, 0, []⟩)] := by decide
  simp only [ResumeRouter.analyze_resume, List.map_cons, List.map_nil]
  rw [hana]
  rw [Prod.ext_iff, Prod.ext_iff]
  refine ⟨by decide, by decide, ?_⟩
  simp +decide only [AIService.calculate_confidence_score, totalImportance,
    matchedImportance, List.map_cons, List.map_nil, List.sum_cons, List.sum_nil,
    List.isEmpty_cons, if_true, if_false]
  norm_num

theorem head_dropWhile_false {p : Char → Bool} (l : List Char) (c : Char)
    (h : (l.dropWhile p).head? = some c) : p c = false := by
  induction l with
  | nil => simp at h
  | cons d rest ih =>
    rw [List.dropWhile_cons] at h
    by_cases hd : p d
    · rw [if_pos hd] at h
      exact ih h
    · rw [if_neg hd] at h
      simp only [List.head?_cons, Option.some.injEq] at h
      subst h
      exact Bool.eq_false_iff.mpr hd

theorem getLast_of_suffix {s t : List Char} (h : s <:+ t) (hne : s ≠ []) :
    s.getLast? = t.getLast? := by
  obtain ⟨u, rfl⟩ := h
  rw [List.getLast?_append_of_ne_nil u hne]

theorem pstrip_getLast (l : List Char) (c : Char)
    (h : (pstrip l).getLast? = some c) : isPySpace c = false := by
  rw [pstrip, List.getLast?_reverse] at h
  exact head_dropWhile_false _ c h

theorem pstrip_head (l : List Char) (c : Char)
    (h : (pstrip l).head? = some c) : isPySpace c = false := by
  rw [pstrip, List.head?_reverse] at h
  have hne : ((l.dropWhile isPySpace).reverse.dropWhile isPySpace) ≠ [] := by
    intro hc
    rw [hc] at h
    simp at h
  rw [getLast_of_suffix (List.dropWhile_suffix isPySpace) hne,
    List.getLast?_reverse] at h
  exact head_dropWhile_false _ c h

theorem mem_pstrip {l : List Char} {c : Char} (h : c ∈ pstrip l) : c ∈ l := by
  rw [pstrip, List.mem_reverse] at h
  have h2 := (List.dropWhile_sublist isPySpace).subset h
  rw [List.mem_reverse] at h2
  exact (List.dropWhile_sublist isPySpace).subset h2

theorem pstrip_eq_self (l : List Char)
    (hh : ∀ c, l.head? = some c → isPySpace c = false)
    (hl : ∀ c, l.getLast? = some c → isPySpace c = false) :
    pstrip l = l := by
  have h1 : l.dropWhile isPySpace = l := by
    cases l with
    | nil => rfl
    | cons d rest =>
      rw [List.dropWhile_cons, if_neg]
      rw [Bool.not_eq_true]
      exact hh d rfl
  rw [pstrip, h1]
  have h2 : l.reverse.dropWhile isPySpace = l.reverse := by
    cases hrev : l.reverse with
    | nil => rfl
    | cons d rest =>
      rw [List.dropWhile_cons, if_neg]
      rw [Bool.not_eq_true]
      apply hl d
      rw [← List.head?_reverse, hrev]
      rfl
  rw [h2, List.reverse_reverse]

theorem pySplitAux_words (l : List Char) :
    ∀ acc, (∀ c ∈ acc, isPySpace c = false) →
      ∀ w ∈ pySplitAux l acc, w ≠ [] ∧ ∀ c ∈ w, isPySpace c = false := by
  induction l with
  | nil =>
    intro acc hacc w hw
    rw [pySplitAux] at hw
    by_cases hae : acc.isEmpty
    · rw [if_pos hae] at hw
      simp at hw
    · rw [if_neg hae] at hw
      rw [List.mem_singleton] at hw
      subst hw
      refine ⟨by simpa [List.isEmpty_iff] using hae, ?_⟩
      intro c hc
      rw [List.mem_reverse] at hc
      exact hacc c hc
  | cons d rest ih =>
    intro acc hacc w hw
    rw [pySplitAux] at hw
    by_cases hd : isPySpace d
    · rw [if_pos hd] at hw
      by_cases hae : acc.isEmpty
      · rw [if_pos hae] at hw
        exact ih [] (by simp) w hw
      · rw [if_neg hae] at hw
        rcases List.mem_cons.mp hw with rfl | hw2
        · refine ⟨by simpa [List.isEmpty_iff] using hae, ?_⟩
          intro c hc
          rw [List.mem_reverse] at hc
          exact hacc c hc
        · exact ih [] (by simp) w hw2
    · rw [if_neg hd] at hw
      refine ih (d :: acc) ?_ w hw
      intro c hc
      rcases List.mem_cons.mp hc with rfl | hc2
      · exact Bool.eq_false_iff.mpr hd
      · exact hacc c hc2

theorem pySplitAux_chars (l : List Char) :
    ∀ acc w c, w ∈ pySplitAux l acc → c ∈ w → c ∈ l ∨ c ∈ acc := by
  induction l with
  | nil =>
    intro acc w c hw hc
    rw [pySplitAux] at hw
    by_cases hae : acc.isEmpty
    · rw [if_pos hae] at hw
      simp at hw
    · rw [if_neg hae] at hw
      rw [List.mem_singleton] at hw
      subst hw
      right
      rw [← List.mem_reverse]
      exact hc
  | cons d rest ih =>
    intro acc w c hw hc
    rw [pySplitAux] at hw
    by_cases hd : isPySpace d
    · rw [if_pos hd] at hw
      by_cases hae : acc.isEmpty
      · rw [if_pos hae] at hw
        rcases ih [] w c hw hc with h | h
        · exact Or.inl (List.mem_cons_of_mem d h)
        · simp at h
      · rw [if_neg hae] at hw
        rcases List.mem_cons.mp hw with rfl | hw2
        · right
          rw [← List.mem_reverse]
          exact hc
        · rcases ih [] w c hw2 hc with h | h
          · exact Or.inl (List.mem_cons_of_mem d h)
          · simp at h
    · rw [if_neg hd] at hw
      rcases ih (d :: acc) w c hw hc with h | h
      · exact Or.inl (List.mem_cons_of_mem d h)
      · rcases List.mem_cons.mp h with rfl | h2
        · exact Or.inl (List.mem_cons_self _ _)
        · exact Or.inr h2

theorem pySplitAux_word_step (w : List Char) :
    ∀ l acc, (∀ c ∈ w, isPySpace c = false) →
      pySplitAux (w ++ l) acc = pySplitAux l (w.reverse ++ acc) := by
  induction w with
  | nil => intro l acc _; simp
  | cons d w' ih =>
    intro l acc hw
    have hd : isPySpace d = false := hw d (List.mem_cons_self _ _)
    have hw' : ∀ c ∈ w', isPySpace c = false :=
      fun c hc => hw c (List.mem_cons_of_mem d hc)
    rw [List.cons_append, pySplitAux, if_neg (by simp [hd]), ih l (d :: acc) hw']
    congr 1
    simp

theorem pySplitAux_space_cons (l acc : List Char) (c : Char) (hc : isPySpace c = true) :
    pySplitAux (c :: l) acc =
      if acc.isEmpty then pySplitAux l [] else acc.reverse :: pySplitAux l [] := by
  rw [pySplitAux, if_pos hc]

theorem pySplit_joinWith (ws : List (List Char))
    (h : ∀ w ∈ ws, w ≠ [] ∧ ∀ c ∈ w, isPySpace c = false) :
    pySplit (joinWith ' ' ws) = ws := by
  induction ws with
  | nil => rfl
  | cons w ws' ih =>
    obtain ⟨hwne, hwch⟩ := h w (List.mem_cons_self _ _)
    have h' : ∀ v ∈ ws', v ≠ [] ∧ ∀ c ∈ v, isPySpace c = false :=
      fun v hv => h v (List.mem_cons_of_mem _ hv)
    cases ws' with
    | nil =>
      show pySplitAux (joinWith ' ' [w]) [] = [w]
      have hjw : joinWith ' ' [w] = w ++ [] := by
        rw [List.append_nil]
        rfl
      rw [hjw, pySplitAux_word_step w [] [] hwch, pySplitAux,
        if_neg (by simpa [List.isEmpty_iff] using hwne)]
      simp
    | cons w2 ws'' =>
      show pySplitAux (joinWith ' ' (w :: w2 :: ws'')) [] = w :: w2 :: ws''
      rw [joinWith, pySplitAux_word_step w _ _ hwch,
        pySplitAux_space_cons _ _ ' ' (by decide),
        if_neg (by simpa [List.isEmpty_iff] using hwne)]
      rw [List.append_nil, List.reverse_reverse]
      · exact congrArg (w :: ·) (ih h')
      · simp

theorem mem_joinWith {ws : List (List Char)} {c : Char} (h : c ∈ joinWith ' ' ws) :
    c = ' ' ∨ ∃ w ∈ ws, c ∈ w := by
  induction ws with
  | nil => simp [joinWith] at h
  | cons w ws' ih =>
    cases ws' with
    | nil => exact Or.inr ⟨w, List.mem_cons_self _ _, h⟩
    | cons w2 ws'' =>
      rw [show joinWith ' ' (w :: w2 :: ws'') =
        w ++ ' ' :: joinWith ' ' (w2 :: ws'') from rfl] at h
      rcases List.mem_append.mp h with h1 | h2
      · exact Or.inr ⟨w, List.mem_cons_self _ _, h1⟩
      · rcases List.mem_cons.mp h2 with rfl | h3
        · exact Or.inl rfl
        · rcases ih h3 with h4 | ⟨v, hv, hc⟩
          · exact Or.inl h4
          · exact Or.inr ⟨v, List.mem_cons_of_mem _ hv, hc⟩

theorem joinWith_ne_nil {ws : List (List Char)} (hne : ws ≠ [])
    (h : ∀ w ∈ ws, w ≠ []) : joinWith ' ' ws ≠ [] := by
  cases ws with
  | nil => exact absurd rfl hne
  | cons w ws' =>
    cases ws' with
    | nil => exact h w (List.mem_cons_self _ _)
    | cons w2 ws'' =>
      rw [show joinWith ' ' (w :: w2 :: ws'') =
        w ++ ' ' :: joinWith ' ' (w2 :: ws'') from rfl]
      simp

theorem joinWith_head (ws : List (List Char))
    (h : ∀ w ∈ ws, w ≠ [] ∧ ∀ c ∈ w, isPySpace c = false) :
    ∀ c, (joinWith ' ' ws).head? = some c → isPySpace c = false := by
  cases ws with
  | nil =>
    intro c hc
    simp [joinWith] at hc
  | cons w ws' =>
    intro c hc
    obtain ⟨hwne, hwch⟩ := h w (List.mem_cons_self _ _)
    have hhead : (joinWith ' ' (w :: ws')).head? = w.head? := by
      cases ws' with
      | nil => rfl
      | cons w2 ws'' =>
        rw [show joinWith ' ' (w :: w2 :: ws'') =
          w ++ ' ' :: joinWith ' ' (w2 :: ws'') from rfl]
        cases w with
        | nil => exact absurd rfl hwne
        | cons a w' => rfl
    rw [hhead] at hc
    cases w with
    | nil => simp at hc
    | cons a w' =>
      simp only [List.head?_cons, Option.some.injEq] at hc
      subst hc
      exact hwch a (List.mem_cons_self _ _)

theorem mem_of_getLast_eq {l : List Char} {c : Char} (h : l.getLast? = some c) :
    c ∈ l := by
  induction l with
  | nil => simp at h
  | cons a rest ih =>
    cases rest with
    | nil =>
      simp only [List.getLast?_singleton, Option.some.injEq] at h
      subst h
      exact List.mem_singleton_self a
    | cons b rest' =>
      rw [List.getLast?_cons_cons] at h
      exact List.mem_cons_of_mem a (ih h)

theorem joinWith_getLast (ws : List (List Char))
    (h : ∀ w ∈ ws, w ≠ [] ∧ ∀ c ∈ w, isPySpace c = false) :
    ∀ c, (joinWith ' ' ws).getLast? = some c → isPySpace c = false := by
  induction ws with
  | nil =>
    intro c hc
    simp [joinWith] at hc
  | cons w ws' ih =>
    intro c hc
    obtain ⟨hwne, hwch⟩ := h w (List.mem_cons_self _ _)
    have h' : ∀ v ∈ ws', v ≠ [] ∧ ∀ c ∈ v, isPySpace c = false :=
      fun v hv => h v (List.mem_cons_of_mem _ hv)
    cases ws' with
    | nil =>
      have hcmem : c ∈ w := mem_of_getLast_eq hc
      exact hwch c hcmem
    | cons w2 ws'' =>
      rw [show joinWith ' ' (w :: w2 :: ws'') =
        w ++ ' ' :: joinWith ' ' (w2 :: ws'') from rfl] at hc
      rw [List.getLast?_append_of_ne_nil w (by simp)] at hc
      have hJne : joinWith ' ' (w2 :: ws'') ≠ [] :=
        joinWith_ne_nil (by simp) (fun v hv => (h' v hv).1)
      cases hJ : joinWith ' ' (w2 :: ws'') with
      | nil => exact absurd hJ hJne
      | cons b J' =>
        rw [hJ, List.getLast?_cons_cons] at hc
        apply ih h' c
        rw [hJ]
        exact hc

theorem not_space_beq {a : Char} (h : isPySpace a = false) : (a == ' ') = false := by
  cases hb : a == ' '
  · rfl
  · have ha : a = ' ' := beq_iff_eq.mp hb
    subst ha
    exact absurd h (by decide)

theorem noDoubleSpace_append (w : List Char) :
    ∀ l, (∀ c ∈ w, isPySpace c = false) → noDoubleSpace l = true →
      noDoubleSpace (w ++ l) = true := by
  induction w with
  | nil =>
    intro l _ hl
    simpa using hl
  | cons a w' ih =>
    intro l hw hl
    have ha : isPySpace a = false := hw a (List.mem_cons_self _ _)
    have hw' : ∀ c ∈ w', isPySpace c = false :=
      fun c hc => hw c (List.mem_cons_of_mem a hc)
    cases w' with
    | nil =>
      cases l with
      | nil => rfl
      | cons b r =>
        show (!(a == ' ' && b == ' ') && noDoubleSpace (b :: r)) = true
        rw [not_space_beq ha]
        simpa using hl
    | cons b w'' =>
      show (!(a == ' ' && b == ' ') && noDoubleSpace ((b :: w'') ++ l)) = true
      rw [not_space_beq ha]
      simpa using ih l hw' hl

theorem noDoubleSpace_joinWith (ws : List (List Char))
    (h : ∀ w ∈ ws, w ≠ [] ∧ ∀ c ∈ w, isPySpace c = false) :
    noDoubleSpace (joinWith ' ' ws) = true := by
  induction ws with
  | nil => rfl
  | cons w ws' ih =>
    obtain ⟨hwne, hwch⟩ := h w (List.mem_cons_self _ _)
    have h' : ∀ v ∈ ws', v ≠ [] ∧ ∀ c ∈ v, isPySpace c = false :=
      fun v hv => h v (List.mem_cons_of_mem _ hv)
    cases ws' with
    | nil =>
      have := noDoubleSpace_append w [] hwch rfl
      simpa using this
    | cons w2 ws'' =>
      rw [show joinWith ' ' (w :: w2 :: ws'') =
        w ++ ' ' :: joinWith ' ' (w2 :: ws'') from rfl]
      apply noDoubleSpace_append w _ hwch
      have hJne : joinWith ' ' (w2 :: ws'') ≠ [] :=
        joinWith_ne_nil (by simp) (fun v hv => (h' v hv).1)
      cases hJ : joinWith ' ' (w2 :: ws'') with
      | nil => exact absurd hJ hJne
      | cons b J' =>
        have hb : isPySpace b = false := by
          apply joinWith_head (w2 :: ws'') h' b
          rw [hJ]
          rfl
        show (!(' ' == ' ' && b == ' ') && noDoubleSpace (b :: J')) = true
        rw [not_space_beq hb]
        have := ih h'
        rw [hJ] at this
        simpa using this

theorem replaceCRLF_no_cr (l : List Char) (h : '\r' ∉ l) : replaceCRLF l = l := by
  induction l with
  | nil => rfl
  | cons c rest ih =>
    have hc : c ≠ '\r' := fun hcc => h (hcc ▸ List.mem_cons_self _ _)
    have hrest : '\r' ∉ rest := fun hm => h (List.mem_cons_of_mem c hm)
    cases rest with
    | nil => rfl
    | cons d rest' =>
      rw [replaceCRLF, if_neg (fun hand => hc hand.1), ih hrest]

theorem replaceCR_no_cr (l : List Char) (h : '\r' ∉ l) : replaceCR l = l := by
  rw [replaceCR]
  have hmap : ∀ c ∈ l, (if c = '\r' then '\n' else c) = id c := by
    intro c hc
    rw [if_neg]
    · rfl
    · intro h2
      subst h2
      exact h hc
  rw [List.map_congr_left hmap, List.map_id]

theorem mem_joinWith_pySplit (s : List Char) {c : Char}
    (hc : c ∈ joinWith ' ' (pySplit s)) :
    c = ' ' ∨ (isPySpace c = false ∧ c ∈ s) := by
  rcases mem_joinWith hc with h | ⟨w, hw, hcw⟩
  · exact Or.inl h
  · refine Or.inr ⟨(pySplitAux_words s [] (by simp) w hw).2 c hcw, ?_⟩
    rcases pySplitAux_chars s [] w c hw hcw with h | h
    · exact h
    · simp at h

theorem no_cr_joinWith_pySplit (s : List Char) :
    '\r' ∉ joinWith ' ' (pySplit s) := by
  intro hm
  rcases mem_joinWith_pySplit s hm with h | ⟨h, _⟩
  · exact absurd h (by decide)
  · exact absurd h (by decide)

/-- For every input, `clean_text` reduces to stripping the null-filtered
space-join of the whitespace-split words: the line-break replacements are
no-ops because the join contains no carriage returns. -/
theorem clean_text_eq_pstrip_filter (s : List Char) :
    FileService.clean_text s =
      pstrip ((joinWith ' ' (pySplit s)).filter (fun c => !(c == '\x00'))) := by
  rw [FileService.clean_text]
  by_cases hs : s.isEmpty
  · rw [if_pos hs]
    obtain rfl := List.isEmpty_iff.mp hs
    rfl
  · rw [if_neg hs]
    show pstrip (replaceCR (replaceCRLF _)) = _
    have hnoCR2 : '\r' ∉ (joinWith ' ' (pySplit s)).filter (fun c => !(c == '\x00')) :=
      fun hm => no_cr_joinWith_pySplit s (List.mem_of_mem_filter hm)
    rw [replaceCRLF_no_cr _ hnoCR2, replaceCR_no_cr _ hnoCR2]

/-- On null-free input, `clean_text` is exactly the space-join of the
whitespace-split words. -/
theorem clean_text_nullfree (s : List Char) (h : '\x00' ∉ s) :
    FileService.clean_text s = joinWith ' ' (pySplit s) := by
  rw [clean_text_eq_pstrip_filter]
  have hwords : ∀ w ∈ pySplit s, w ≠ [] ∧ ∀ c ∈ w, isPySpace c = false :=
    pySplitAux_words s [] (by simp)
  have hfilter : (joinWith ' ' (pySplit s)).filter (fun c => !(c == '\x00'))
      = joinWith ' ' (pySplit s) := by
    rw [List.filter_eq_self]
    intro c hc
    rcases mem_joinWith_pySplit s hc with rfl | ⟨_, hmem⟩
    · decide
    · simp only [Bool.not_eq_eq_eq_not, Bool.not_true, beq_eq_false_iff_ne, ne_eq]
      intro hcc
      subst hcc
      exact h hmem
  rw [hfilter]
  exact pstrip_eq_self _ (joinWith_head _ hwords) (joinWith_getLast _ hwords)

/-- C10 counterexample: on input `"a \x00 b"` the cleaned text `"a  b"`
contains two consecutive spaces, and cleaning it again gives the different
string `"a b"` — `clean_text` is neither double-space-free nor idempotent in
the presence of null bytes. -/
theorem C10_clean_text_counterexample :
    FileService.clean_text "a \x00 b".toList = "a  b".toList ∧
    noDoubleSpace (FileService.clean_text "a \x00 b".toList) = false ∧
    FileService.clean_text (FileService.clean_text "a \x00 b".toList) ≠
      FileService.clean_text "a \x00 b".toList := by
  decide

/-- C10 amended: for every input, `clean_text` output contains no newline,
carriage-return or null character and has no leading or trailing whitespace;
for inputs free of null bytes, whitespace runs are collapsed to single
spaces (no consecutive spaces remain) and `clean_text` is idempotent.
(Null bytes sit inside whitespace runs, are removed after the whitespace
collapse, and can leave two adjacent spaces behind, breaking idempotence.) -/
theorem C10_clean_text_amended (s : List Char) :
    ('\n' ∉ FileService.clean_text s ∧ '\r' ∉ FileService.clean_text s ∧
      '\x00' ∉ FileService.clean_text s) ∧
    (∀ c, (FileService.clean_text s).head? = some c → isPySpace c = false) ∧
    (∀ c, (FileService.clean_text s).getLast? = some c → isPySpace c = false) ∧
    ('\x00' ∉ s → noDoubleSpace (FileService.clean_text s) = true ∧
      FileService.clean_text (FileService.clean_text s) = FileService.clean_text s) := by
  have hwords : ∀ w ∈ pySplit s, w ≠ [] ∧ ∀ c ∈ w, isPySpace c = false :=
    pySplitAux_words s [] (by simp)
  refine ⟨⟨?_, ?_, ?_⟩, ?_, ?_, ?_⟩
  · intro hm
    rw [clean_text_eq_pstrip_filter] at hm
    have h2 := List.mem_of_mem_filter (mem_pstrip hm)
    rcases mem_joinWith_pySplit s h2 with h | ⟨h, _⟩
    · exact absurd h (by decide)
    · exact absurd h (by decide)
  · intro hm
    rw [clean_text_eq_pstrip_filter] at hm
    exact no_cr_joinWith_pySplit s (List.mem_of_mem_filter (mem_pstrip hm))
  · intro hm
    rw [clean_text_eq_pstrip_filter] at hm
    have h2 := List.mem_filter.mp (mem_pstrip hm)
    simp at h2
  · intro c hc
    rw [clean_text_eq_pstrip_filter] at hc
    exact pstrip_head _ c hc
  · intro c hc
    rw [clean_text_eq_pstrip_filter] at hc
    exact pstrip_getLast _ c hc
  · intro hnull
    rw [clean_text_nullfree s hnull]
    have hnull2 : '\x00' ∉ joinWith ' ' (pySplit s) := by
      intro hm
      rcases mem_joinWith_pySplit s hm with h | ⟨_, hmem⟩
      · exact absurd h (by decide)
      · exact hnull hmem
    refine ⟨noDoubleSpace_joinWith _ hwords, ?_⟩
    rw [clean_text_nullfree _ hnull2, pySplit_joinWith _ hwords]

/-- Witness for C10 amended at a concrete null-free input with internal
whitespace runs. -/
theorem C10_clean_text_amended_witness :
    noDoubleSpace (FileService.clean_text " x  y ".toList) = true ∧
    FileService.clean_text (FileService.clean_text " x  y ".toList) =
      FileService.clean_text " x  y ".toList :=
  (C10_clean_text_amended " x  y ".toList).2.2.2 (by decide)
